import Mathlib

/-!
Verification of the `mmussomele/crypto` RSA implementation (packages
`rand`, `primes`, `rsa`) against its natural-language specification.

The Go code works on `math/big` integers (arbitrary precision, Euclidean
`Mod`, i.e. nonnegative remainder for a positive modulus) and on byte
slices.  We embed:

* `*big.Int` values that are always nonnegative as `ℕ`, values that can
  be negative (differences, Bezout coefficients) as `ℤ`; `Int.emod`
  (`%` on `ℤ`) agrees with Go's Euclidean `big.Int.Mod` for a positive
  modulus;
* byte slices as `List ℕ` (each entry a byte value);
* randomness as explicit oracle arguments: the byte strings or integers
  the random source would return are parameters of the embedded
  functions, constrained in theorems exactly as the random source
  guarantees;
* the probabilistic Solovay-Strassen test, where a claim needs the
  result of a prime search, as an exact primality oracle: `FindNext` /
  `FindPrevious` return the nearest odd number passing `Is`, which on
  actual primes always succeeds; this is the idealisation the spec
  itself makes when it calls the outputs "primes".

Go loops that are not a priori bounded are embedded with explicit fuel
(the Jacobi loop strictly decreases its second argument, so fuel `b + 1`
is exact) or as single loop bodies iterated over an oracle stream.
-/

/-! ### Byte and bit helpers -/

/-- Fuel-driven bit length; `bitLenAux f n` is the bit length of `n`
provided `f ≥ n`.  Models `big.Int.BitLen` (the position of the highest
set bit plus one, `0` for `0`). -/
def bitLenAux : ℕ → ℕ → ℕ
  | 0, _ => 0
  | f + 1, n => if n = 0 then 0 else bitLenAux f (n / 2) + 1

/-- Bit length of a natural number, as Go's `big.Int.BitLen`. -/
def bitLen (n : ℕ) : ℕ := bitLenAux n n

/-- Big-endian interpretation of a byte slice, as Go's
`big.Int.SetBytes`. -/
def bytesToNat (bs : List ℕ) : ℕ := bs.foldl (fun acc b => acc * 256 + b) 0

/-- Fixed-width big-endian byte encoding: `toBytes k v` is the
`k`-byte big-endian encoding of `v % 2^(8k)`. -/
def toBytes : ℕ → ℕ → List ℕ
  | 0, _ => []
  | k + 1, v => v / 256 ^ k % 256 :: toBytes k v

/-- Minimal big-endian byte encoding of a natural number, as Go's
`big.Int.Bytes` (empty for `0`, no leading zero byte otherwise). -/
def minBytes (v : ℕ) : List ℕ := toBytes ((bitLen v + 7) / 8) v

/-- Count of trailing zero bits; `tzAux f n` needs `f ≥ n` steps.
Models `trailingZeroes` from `primes.go`. -/
def tzAux : ℕ → ℕ → ℕ
  | 0, _ => 0
  | f + 1, n => if n % 2 = 0 then tzAux f (n / 2) + 1 else 0

/-- Trailing-zero count of a positive natural number (`tz 0 = 0` is
irrelevant: the Go code only calls this on nonzero values). -/
def tz (n : ℕ) : ℕ := tzAux n n

/-- Byte-wise XOR of two byte strings of equal length, as the masking
loops in `rsa.go` (`db[i] ^= dbm[i]`). -/
def xorBytes (a b : List ℕ) : List ℕ := List.zipWith (fun x y => x ^^^ y) a b

/-- Big-endian 4-byte encoding of a counter, as
`binary.BigEndian.PutUint32` in `mgf`. -/
def be32 (i : ℕ) : List ℕ := [i / 2 ^ 24 % 256, i / 2 ^ 16 % 256, i / 2 ^ 8 % 256, i % 256]

/-- Clearing bit `i` of `c`, as Go's `SetBit(c, i, 0)`. -/
def clearBit (c i : ℕ) : ℕ := if c.testBit i then c ^^^ 2 ^ i else c

/-- The bit-clearing loop of `rand.Int`: `for i := n; i < c; i++`
with `c` the bit length of the candidate, clearing every bit at
position `≥ n`. -/
def clearHigh (n cand : ℕ) : ℕ := (List.range' n (bitLen cand - n)).foldl clearBit cand

/-! ### Package `rand` -/

/-- One iteration of `rand.Int` from `rand/rand.go`, for a given byte
string `buf` read from the entropy source: interpret the bytes, clear
the bits at positions `≥ bitLen (max-1)`, and accept the candidate only
if it is `< max` (`none` models the retry). -/
def randIntStep (max : ℕ) (buf : List ℕ) : Option ℕ :=
  let n := bitLen (max - 1)
  let candidate := clearHigh n (bytesToNat buf)
  if candidate < max then some candidate else none

/-- The retry loop of `rand.Int`: `stream i` is the byte string the
`i`-th entropy read returns; the loop keeps drawing until a candidate is
accepted (`fuel` bounds the iterations we observe). -/
def randInt (max : ℕ) (stream : ℕ → List ℕ) : ℕ → Option ℕ
  | 0 => none
  | fuel + 1 =>
    match randIntStep max (stream 0) with
    | some v => some v
    | none => randInt max (fun i => stream (i + 1)) fuel

/-! ### Package `primes` -/

/-- The loop body of `primes.Jacobi`, with fuel.  Each iteration
strictly decreases `b` (the new `b` is the odd part of `a % b`), so fuel
`b + 1` always suffices.  `s` is the accumulated sign. -/
def jacobiStep : ℕ → ℕ → ℕ → ℤ → ℤ
  | 0, _, _, _ => 0
  | fuel + 1, a, b, s =>
    if b = 1 ∨ a = 1 then s
    else
      let a2 := a % b
      if a2 = 0 then 0
      else
        let i := tz a2
        let c := a2 / 2 ^ i
        let s1 := if i % 2 = 1 ∧ (b % 8 = 3 ∨ b % 8 = 5) then -s else s
        let s2 := if c % 4 = 3 ∧ b % 4 = 3 then -s1 else s1
        jacobiStep fuel b c s2

/-- `primes.Jacobi` for nonnegative arguments (the uses in this
repository, and the claims, only involve `a ≥ 0` and odd `b ≥ 1`). -/
def Jacobi (a b : ℕ) : ℤ := jacobiStep (b + 1) a b 1

/-- The round loop of `primes.Is` (Solovay-Strassen).  `draw i` models
the value `rand.Int(p-2)` returns in round `i` (so the witness is
`draw i + 2`); `k` counts the rounds already performed. -/
def isGoAux (p pow : ℕ) (draw : ℕ → ℕ) : ℕ → ℕ → Bool
  | _, 0 => true
  | k, r + 1 =>
    let a := draw k + 2
    let j := Jacobi a p
    if j = 0 then false
    else
      let jm := j % (p : ℤ)
      let m := ((a : ℕ) ^ pow % p : ℕ)
      if (m : ℤ) = jm then isGoAux p pow draw (k + 1) r else false

/-- `primes.Is p n`: the Solovay-Strassen test with `n` rounds, the
random witnesses supplied by `draw`.  `pow = (p-1)/2` as in the code
(`p.Sub(p, one).Rsh(pow, 1)`). -/
def isGo (p : ℕ) (n : ℕ) (draw : ℕ → ℕ) : Bool :=
  isGoAux p ((p - 1) / 2) draw 0 n

/-- The candidate construction in `primes.Find`: interpret
`(b+7)/8` random bytes; if the result has fewer than `b` bits, set bit
`b-1` (`p.SetBit(p, b-1, 1)`). -/
def findCandidate (b : ℕ) (buf : List ℕ) : ℕ :=
  let p := bytesToNat buf
  if bitLen p < b then p ||| 2 ^ (b - 1) else p

/-- Characterisation of the value `primes.FindNext s n` returns, with
the Solovay-Strassen test idealised as exact: the code forces `s` odd
(`SetBit(s, 0, 1)`, i.e. `s ||| 1`) and then tests `s, s+2, s+4, …`, so
it returns the least odd prime `≥ s ||| 1`. -/
def IsNextOddPrime (s r : ℕ) : Prop :=
  r.Prime ∧ r % 2 = 1 ∧ (s ||| 1) ≤ r ∧ ∀ k, k.Prime → k % 2 = 1 → (s ||| 1) ≤ k → r ≤ k

/-- Characterisation of the value `primes.FindPrevious s n` returns:
the code forces `s` odd (subtracting `1` if even) and tests
`s, s-2, s-4, …`, so it returns the greatest odd prime `≤ s`. -/
def IsPrevOddPrime (s r : ℕ) : Prop :=
  r.Prime ∧ r % 2 = 1 ∧ r ≤ s ∧ ∀ k, k.Prime → k % 2 = 1 → k ≤ s → k ≤ r

/-! ### Package `rsa`: keys and raw cipher operations -/

/-- The error values of `rsa.go`. -/
inductive Err : Type
  | messageTooLarge
  | cipherTextWrongLength
  | decryption
  | encoding
  | decoding
  deriving DecidableEq

/-- `rsa.PrivateKey`.  Fields that Go stores as always-nonnegative
`big.Int`s are `ℕ`; `d` and the values derived from it are `ℤ` because
the Bezout coefficient `GCD` produces may be negative and `NewKey`
stores it unreduced. -/
structure RSAKey where
  n : ℕ
  e : ℕ
  d : ℤ
  p : ℕ
  q : ℕ
  dP : ℤ
  dQ : ℤ
  qInv : ℤ
  bits : ℕ

/-- The raw public operation `encrypt` in `rsa.go`:
`new(big.Int).Exp(m, e, n)`. -/
def rsaEncrypt (n e : ℕ) (m : ℤ) : ℤ := m ^ e % (n : ℤ)

/-- The raw private operation `decrypt` in `rsa.go` (CRT):
`m1 = c^dP mod p`, `m2 = c^dQ mod q`,
`h = ((m1 - m2) * qInv) mod p`, result `m2 + h*q`.  The exponents are
taken with `toNat` since `big.Int.Exp` is only called with the
nonnegative `dP`, `dQ`. -/
def rsaDecrypt (k : RSAKey) (c : ℤ) : ℤ :=
  let m1 := c ^ k.dP.toNat % (k.p : ℤ)
  let m2 := c ^ k.dQ.toNat % (k.q : ℤ)
  let h := (m1 - m2) * k.qInv % (k.p : ℤ)
  m2 + h * (k.q : ℤ)

/-- Go's `big.Int.ModInverse(a, n)` when `gcd a n = 1`: the Bezout
coefficient of `a`, reduced into `[0, n)`. -/
def modInverse (a n : ℤ) : ℤ := Int.gcdA a n % n

/-! ### Package `rsa`: OAEP -/

/-- `mgf` from `rsa.go`: concatenate `hash (z ++ be32 i)` for
`i = 0, …, ceil(l / hSize) - 1` and truncate to `l` bytes. -/
def mgf (hash : List ℕ → List ℕ) (hSize : ℕ) (z : List ℕ) (l : ℕ) : List ℕ :=
  let n := l / hSize + (if l % hSize = 0 then 0 else 1)
  (List.flatten ((List.range n).map (fun i => hash (z ++ be32 i)))).take l

/-- `oaepEncode` from `rsa.go`.  `seed` is the `hSize`-byte random
string `rand.Read` fills; the length comparisons are over `ℤ` because
Go computes them in (possibly negative) `int` arithmetic.  `none` is
`ErrEncoding`. -/
def oaepEncode (hash : List ℕ → List ℕ) (hSize : ℕ) (m p : List ℕ) (l : ℕ)
    (seed : List ℕ) : Option (List ℕ) :=
  if (m.length : ℤ) > (l : ℤ) - 2 * hSize - 1 then none
  else
    let padLen : ℤ := (l : ℤ) - m.length - 2 * hSize - 1
    let ps : List ℕ := if 0 < padLen then List.replicate padLen.toNat 0 else []
    let db := hash p ++ ps ++ 1 :: m
    let dbm := mgf hash hSize seed (l - hSize)
    let dbMasked := xorBytes db dbm
    let sm := mgf hash hSize dbMasked hSize
    let sMasked := xorBytes seed sm
    some (sMasked ++ dbMasked)

/-- The unmasking steps of `oaepDecode` in `rsa.go`: split `em` into
masked seed and masked data block, recover the seed with
`mgf(dataPart, hSize)`, then recover the data block with
`mgf(seed, len(em) - hSize)`. -/
def oaepDecodeDB (hash : List ℕ → List ℕ) (hSize : ℕ) (em : List ℕ) : List ℕ :=
  let s := em.take hSize
  let db := em.drop hSize
  let sm := mgf hash hSize db hSize
  let s2 := xorBytes s sm
  let dbm := mgf hash hSize s2 (em.length - hSize)
  xorBytes db dbm

/-- `oaepDecode` from `rsa.go`.  `none` is `ErrDecoding`, returned by
each of its four internal checks (block too short, label-hash prefix
mismatch, empty remainder after stripping the zero padding, missing
`0x01` separator). -/
def oaepDecode (hash : List ℕ → List ℕ) (hSize : ℕ) (em p : List ℕ) : Option (List ℕ) :=
  if em.length < 2 * hSize + 1 then none
  else
    let db2 := oaepDecodeDB hash hSize em
    let ps := hash p
    if ps.isPrefixOf db2 then
      match (db2.drop ps.length).dropWhile (fun b => b == 0) with
      | [] => none
      | b :: tl => if b = 1 then some tl else none
    else none

/-- The first internal check of `oaepDecode`: the encoded block is too
short (`len(em) < 2·hSize + 1`). -/
def DecodeFailTooShort (hSize : ℕ) (em : List ℕ) : Prop := em.length < 2 * hSize + 1

/-- The second internal check of `oaepDecode`: the unmasked data block
does not start with the label hash. -/
def DecodeFailLabel (hash : List ℕ → List ℕ) (hSize : ℕ) (em p : List ℕ) : Prop :=
  ¬ (hash p).isPrefixOf (oaepDecodeDB hash hSize em) = true

/-- The remaining internal checks of `oaepDecode`: after stripping the
label hash and the leading zero padding, the block is empty or its
first byte is not the `0x01` separator. -/
def DecodeFailPad (hash : List ℕ → List ℕ) (hSize : ℕ) (em p : List ℕ) : Prop :=
  match ((oaepDecodeDB hash hSize em).drop (hash p).length).dropWhile (fun b => b == 0) with
  | [] => True
  | b :: _ => b ≠ 1

/-! ### Package `rsa`: `Encrypt`, `Decrypt`, key generation -/

/-- `rsa.Encrypt`.  `seed` is the random OAEP seed.  The ciphertext is
left-padded with zero bytes to exactly `keySize` bytes. -/
def EncryptGo (n e bits : ℕ) (hash : List ℕ → List ℕ) (hSize : ℕ)
    (m p seed : List ℕ) : Except Err (List ℕ) :=
  let keySize := (bits + 7) / 8
  if (m.length : ℤ) > (keySize : ℤ) - 2 * hSize - 2 then Except.error Err.messageTooLarge
  else
    match oaepEncode hash hSize m p (keySize - 1) seed with
    | none => Except.error Err.encoding
    | some em =>
      let c := (bytesToNat em) ^ e % n
      let cb := minBytes c
      Except.ok (if cb.length < keySize then List.replicate (keySize - cb.length) 0 ++ cb else cb)

/-- The blinding, CRT and padding steps of `rsa.Decrypt`: the encoded
block handed to `oaepDecode`.  `r` is the blinding factor the retry
loop settled on (the loop redraws until `ModInverse(r, n)` exists) and
`rInv` its inverse; both are oracle parameters.  The code blinds the
ciphertext with `r^e mod n`, applies the raw CRT operation, unblinds
with `rInv`, and left-pads the byte string to `keySize - 1` bytes when
it is shorter. -/
def decryptEM (k : RSAKey) (c : List ℕ) (r rInv : ℤ) : List ℕ :=
  let keySize := (k.bits + 7) / 8
  let re := r ^ k.e % (k.n : ℤ)
  let bc := (bytesToNat c : ℤ) * re % (k.n : ℤ)
  let bm := rsaDecrypt k bc
  let bm2 := bm * rInv % (k.n : ℤ)
  let emRaw := minBytes bm2.toNat
  if emRaw.length < keySize - 1
  then List.replicate (keySize - emRaw.length - 1) 0 ++ emRaw else emRaw

/-- `rsa.Decrypt`: length check, blinded CRT private operation
(`decryptEM`), OAEP decode; any decode failure is mapped to the single
error `ErrDecryption`. -/
def DecryptGo (k : RSAKey) (hash : List ℕ → List ℕ) (hSize : ℕ)
    (c p : List ℕ) (r rInv : ℤ) : Except Err (List ℕ) :=
  if c.length ≠ (k.bits + 7) / 8 then Except.error Err.cipherTextWrongLength
  else
    match oaepDecode hash hSize (decryptEM k c r rInv) p with
    | none => Except.error Err.decryption
    | some m => Except.ok m

/-- `genSecrets` from `rsa.go`, with the random draws as oracle
parameters: `p` is the prime `primes.Find(bits/2+1, 128)` returned,
`rq` the value of `rand.Int(qMin)`, and `qNext` / `qPrev` the primes
`FindNext qn` / `FindPrevious qn` return (constrained by
`IsNextOddPrime` / `IsPrevOddPrime` in the theorems).  `none` models
the `panic` on an undersized modulus; the code does not re-check the
bit length after the `FindPrevious` retry. -/
def genSecrets (bits p rq qNext qPrev : ℕ) : Option (ℕ × ℕ × ℕ) :=
  let n := p * qNext
  if bitLen n = bits then some (p, qNext, n)
  else if bitLen n < bits then none
  else some (p, qPrev, p * qPrev)

/-- One iteration of the `NewKey` retry loop (`rsa.go`): compute
`λ(n) = (p-1)(q-1)/gcd(p-1, q-1)`, the Bezout coefficient `d` of
`e = 65537`, and give up (`none`, Go's `continue`) unless
`gcd(λ, e) = 1`. -/
def newKeyStep (bits p rq qNext qPrev : ℕ) : Option RSAKey :=
  match genSecrets bits p rq qNext qPrev with
  | none => none
  | some (p, q, n) =>
    let p1 := p - 1
    let q1 := q - 1
    let lcd := p1 * q1 / Nat.gcd p1 q1
    let d := Int.gcdB (lcd : ℤ) 65537
    if Nat.gcd lcd 65537 = 1 then
      some { n := n, e := 65537, d := d, p := p, q := q,
             dP := d % (p1 : ℤ), dQ := d % (q1 : ℤ),
             qInv := modInverse (q : ℤ) (p : ℤ), bits := bits }
    else none

/-! ### Bit-length lemmas -/

theorem size_div_two_succ {n : ℕ} (h : n ≠ 0) : Nat.size n = Nat.size (n / 2) + 1 := by
  conv_lhs => rw [← Nat.bit_decomp n]
  rw [Nat.size_bit (by rwa [Nat.bit_decomp]), Nat.div2_val]

theorem bitLenAux_eq_size : ∀ f n : ℕ, n ≤ f → bitLenAux f n = Nat.size n := by
  intro f
  induction f with
  | zero =>
    intro n hn
    obtain rfl : n = 0 := Nat.le_zero.mp hn
    simp [bitLenAux]
  | succ f ih =>
    intro n hn
    by_cases h0 : n = 0
    · simp [bitLenAux, h0]
    · rw [bitLenAux, if_neg h0, ih (n / 2) (by omega), size_div_two_succ h0]

theorem bitLen_eq_size (n : ℕ) : bitLen n = Nat.size n := bitLenAux_eq_size n n le_rfl

theorem bitLen_le {m n : ℕ} : bitLen m ≤ n ↔ m < 2 ^ n := by
  rw [bitLen_eq_size]; exact Nat.size_le

theorem lt_bitLen {m n : ℕ} : m < bitLen n ↔ 2 ^ m ≤ n := by
  rw [bitLen_eq_size]; exact Nat.lt_size

theorem bitLen_eq_iff {n b : ℕ} (hb : 1 ≤ b) :
    bitLen n = b ↔ 2 ^ (b - 1) ≤ n ∧ n < 2 ^ b := by
  constructor
  · intro h
    exact ⟨lt_bitLen.mp (by omega), bitLen_le.mp (by omega)⟩
  · rintro ⟨h1, h2⟩
    have a1 : b - 1 < bitLen n := lt_bitLen.mpr h1
    have a2 : bitLen n ≤ b := bitLen_le.mpr h2
    omega

theorem lt_two_pow_bitLen (n : ℕ) : n < 2 ^ bitLen n := by
  rw [bitLen_eq_size]; exact Nat.lt_size_self n

/-! ### Claim C7: the bit length of the candidate drawn by `primes.Find` -/

/-- Claim C7, counterexample.  `Find 9 _` reads `(9+7)/8 = 2` random
bytes; if they come back `0xFFFF` the candidate has bit length 16, not
the requested 9: the code only fixes candidates that are too short,
never too long, so "exactly `bits` bits — no more" is false. -/
theorem findCandidate_not_exact :
    ([255, 255] : List ℕ).length = (9 + 7) / 8 ∧
      bitLen (findCandidate 9 [255, 255]) = 16 := by
  constructor
  · rfl
  · decide

/-- Claim C7, amended: the candidate `primes.Find bits _` builds has bit
length at least `bits` (bit `bits-1` is forced when the random bytes
fall short), but may exceed `bits` since whole random bytes are drawn;
so the prime search starts from a candidate of at least the requested
size. -/
theorem findCandidate_ge (b : ℕ) (buf : List ℕ) (hb : 1 ≤ b) :
    b ≤ bitLen (findCandidate b buf) := by
  unfold findCandidate
  by_cases h : bitLen (bytesToNat buf) < b
  · rw [if_pos h]
    have htb : (bytesToNat buf ||| 2 ^ (b - 1)).testBit (b - 1) = true := by
      rw [Nat.testBit_or, Nat.testBit_two_pow]
      simp
    have h2 : 2 ^ (b - 1) ≤ bytesToNat buf ||| 2 ^ (b - 1) :=
      Nat.testBit_implies_ge htb
    have h3 : b - 1 < bitLen (bytesToNat buf ||| 2 ^ (b - 1)) := lt_bitLen.mpr h2
    omega
  · rw [if_neg h]
    omega

/-- Claim C7 witness: the amended bound applied at `bits = 9` with the
two-byte draw `0x0001`. -/
theorem findCandidate_ge_witness :
    1 ≤ 9 ∧ 9 ≤ bitLen (findCandidate 9 [0, 1]) :=
  ⟨by decide, findCandidate_ge 9 [0, 1] (by decide)⟩

/-! ### Claim C6: no trivial rejection of even or small inputs in `primes.Is` -/

/-- Claim C6, counterexample.  `primes.Is` has no pre-loop check at
all: on the even input `p = 4` with `0` rounds the round loop never
runs and the test returns `true`, not `false` as the claim requires for
every rounds count. -/
theorem isGo_even_counterexample :
    (4 : ℕ) % 2 = 0 ∧ isGo 4 0 (fun _ => 0) = true := ⟨rfl, rfl⟩

/-- Claim C6, amended: `primes.Is` performs no trivial rejection of
even or `≤ 1` inputs before its witness loop — with `0` rounds it
returns `true` for every input `p` and every sequence of random draws;
even inputs are only ever rejected by the per-round Jacobi/Euler
checks. -/
theorem isGo_zero_rounds (p : ℕ) (draw : ℕ → ℕ) : isGo p 0 draw = true := rfl

/-! ### Claim C8: `rand.Int` -/

theorem mem_range'_iff {s len j : ℕ} : j ∈ List.range' s len ↔ s ≤ j ∧ j < s + len := by
  rw [List.mem_range']
  constructor
  · rintro ⟨i, hi, rfl⟩; omega
  · intro h; exact ⟨j - s, by omega, by omega⟩

theorem testBit_clearBit (c i j : ℕ) :
    (clearBit c i).testBit j = if j = i then false else c.testBit j := by
  unfold clearBit
  by_cases h : c.testBit i
  · rw [if_pos h, Nat.testBit_xor, Nat.testBit_two_pow]
    by_cases hj : j = i
    · subst hj; simp [h]
    · simp [hj, Ne.symm hj]
  · rw [if_neg h]
    by_cases hj : j = i
    · subst hj; simp [h]
    · simp [hj]

theorem testBit_foldl_clearBit (L : List ℕ) (c j : ℕ) :
    (L.foldl clearBit c).testBit j = if j ∈ L then false else c.testBit j := by
  induction L generalizing c with
  | nil => simp
  | cons i L ih =>
    rw [List.foldl_cons, ih]
    by_cases hj : j ∈ L
    · simp [hj]
    · rw [if_neg hj, testBit_clearBit]
      by_cases hji : j = i
      · simp [hji]
      · simp [hji, hj]

theorem clearHigh_eq_mod (n cand : ℕ) : clearHigh n cand = cand % 2 ^ n := by
  apply Nat.eq_of_testBit_eq
  intro j
  rw [clearHigh, testBit_foldl_clearBit, Nat.testBit_mod_two_pow]
  by_cases hj : j < n
  · have hnot : j ∉ List.range' n (bitLen cand - n) := by
      rw [mem_range'_iff]; omega
    rw [if_neg hnot]
    simp [hj]
  · by_cases hc : j < bitLen cand
    · have hmem : j ∈ List.range' n (bitLen cand - n) := by
        rw [mem_range'_iff]; omega
      rw [if_pos hmem]
      simp [hj]
    · have hbit : cand.testBit j = false := by
        apply Nat.testBit_lt_two_pow
        calc cand < 2 ^ bitLen cand := lt_two_pow_bitLen cand
          _ ≤ 2 ^ j := Nat.pow_le_pow_right (by norm_num) (by omega)
      have hnot : j ∉ List.range' n (bitLen cand - n) := by
        rw [mem_range'_iff]; omega
      rw [if_neg hnot, hbit]
      simp

theorem toBytes_length (k v : ℕ) : (toBytes k v).length = k := by
  induction k with
  | zero => rfl
  | succ k ih => rw [toBytes, List.length_cons, ih]

theorem toBytes_lt (k v : ℕ) : ∀ b ∈ toBytes k v, b < 256 := by
  induction k with
  | zero => intro b hb; simp [toBytes] at hb
  | succ k ih =>
    intro b hb
    rw [toBytes, List.mem_cons] at hb
    rcases hb with rfl | hb
    · exact Nat.mod_lt _ (by norm_num)
    · exact ih b hb

theorem bytesToNat_go (bs : List ℕ) (a : ℕ) :
    bs.foldl (fun acc b => acc * 256 + b) a = a * 256 ^ bs.length + bytesToNat bs := by
  induction bs generalizing a with
  | nil => simp [bytesToNat]
  | cons b bs ih =>
    have h1 : bytesToNat (b :: bs) = b * 256 ^ bs.length + bytesToNat bs := by
      rw [bytesToNat, List.foldl_cons, ih]
      norm_num
    rw [List.foldl_cons, ih, h1, List.length_cons]
    ring

theorem bytesToNat_toBytes (k v : ℕ) : bytesToNat (toBytes k v) = v % 256 ^ k := by
  induction k with
  | zero => simp [toBytes, bytesToNat, Nat.mod_one]
  | succ k ih =>
    rw [toBytes, bytesToNat, List.foldl_cons]
    rw [show (0 * 256 + v / 256 ^ k % 256) = v / 256 ^ k % 256 by norm_num]
    rw [bytesToNat_go, toBytes_length]
    show v / 256 ^ k % 256 * 256 ^ k + bytesToNat (toBytes k v) = v % 256 ^ (k + 1)
    rw [ih, ← Nat.mod_mul_right_div_self, ← pow_succ]
    rw [← Nat.mod_mod_of_dvd v (pow_dvd_pow (256 : ℕ) (Nat.le_succ k))]
    conv_rhs => rw [← Nat.div_add_mod (v % 256 ^ (k + 1)) (256 ^ k)]
    ring

/-- Claim C8: for `max > 0`, `rand.Int max` (given successful entropy
reads) masks its `ceil(bitLen(max-1)/8)`-byte draw down to
`bitLen(max-1)` bits and rejects-and-retries until the candidate is
below `max`; hence every value it returns is `< max`, and every
`v < max` is reachable (the byte string encoding `v` makes the very
first iteration return `v`). -/
theorem randIntStep_lt {max : ℕ} {buf : List ℕ} {v : ℕ}
    (h : randIntStep max buf = some v) : v < max := by
  simp only [randIntStep] at h
  split_ifs at h with hlt
  · cases h; exact hlt

theorem randInt_correct (max : ℕ) (hmax : 0 < max) :
    (∀ stream fuel v, randInt max stream fuel = some v → v < max) ∧
    (∀ v, v < max → ∃ buf : List ℕ, buf.length = (bitLen (max - 1) + 7) / 8 ∧
      (∀ b ∈ buf, b < 256) ∧ randInt max (fun _ => buf) 1 = some v) := by
  constructor
  · intro stream fuel
    induction fuel generalizing stream with
    | zero => intro v h; simp [randInt] at h
    | succ fuel ih =>
      intro v h
      rw [randInt] at h
      cases hs : randIntStep max (stream 0) with
      | some w =>
        rw [hs] at h
        have hw : w = v := by simpa using h
        subst hw
        exact randIntStep_lt hs
      | none =>
        rw [hs] at h
        dsimp only at h
        exact ih _ v h
  · intro v hv
    have hmax2 : max ≤ 2 ^ bitLen (max - 1) := by
      have := lt_two_pow_bitLen (max - 1)
      omega
    refine ⟨toBytes ((bitLen (max - 1) + 7) / 8) v, toBytes_length _ _, toBytes_lt _ _, ?_⟩
    have hb : bytesToNat (toBytes ((bitLen (max - 1) + 7) / 8) v) = v := by
      rw [bytesToNat_toBytes]
      apply Nat.mod_eq_of_lt
      calc v < max := hv
        _ ≤ 2 ^ bitLen (max - 1) := hmax2
        _ ≤ 256 ^ ((bitLen (max - 1) + 7) / 8) := by
          rw [show (256 : ℕ) = 2 ^ 8 from rfl, ← pow_mul]
          exact Nat.pow_le_pow_right (by norm_num) (by omega)
    have hstep : randIntStep max (toBytes ((bitLen (max - 1) + 7) / 8) v) = some v := by
      simp only [randIntStep]
      rw [hb, clearHigh_eq_mod, Nat.mod_eq_of_lt (lt_of_lt_of_le hv hmax2), if_pos hv]
    simp [randInt, hstep]

/-- Claim C8 witness: `rand.Int 5` with the single-byte draw `3`
accepts `3 < 5` on the first iteration. -/
theorem randInt_correct_witness : 0 < 5 ∧ (3 : ℕ) < 5 :=
  ⟨by decide, (randInt_correct 5 (by decide)).1 (fun _ => [3]) 1 3 (by decide)⟩

/-! ### Claim C10: `Encrypt`'s precheck makes `ErrEncoding` unreachable -/

/-- Claim C10: `Encrypt` rejects `len(m) > keySize - 2·hashSize - 2`
with `ErrMessageTooLarge` first, and that bound is exactly
`oaepEncode`'s precondition at target length `keySize - 1`; so
`Encrypt` can never surface `ErrEncoding`, whatever the key size, hash
size, message, label and seed (for any positive bit count). -/
theorem encrypt_no_encoding_error (n e bits : ℕ) (hash : List ℕ → List ℕ) (hSize : ℕ)
    (m p seed : List ℕ) (hbits : 1 ≤ bits) :
    EncryptGo n e bits hash hSize m p seed ≠ Except.error Err.encoding := by
  have hK1 : 1 ≤ (bits + 7) / 8 := by omega
  simp only [EncryptGo]
  by_cases h1 : (m.length : ℤ) > ((bits + 7) / 8 : ℕ) - 2 * hSize - 2
  · rw [if_pos h1]
    intro hcon
    exact absurd (Except.error.inj hcon) (by decide)
  · rw [if_neg h1]
    have h2 : ¬ ((m.length : ℤ) > (((bits + 7) / 8 - 1 : ℕ) : ℤ) - 2 * hSize - 1) := by
      have hc : (((bits + 7) / 8 - 1 : ℕ) : ℤ) = (((bits + 7) / 8 : ℕ) : ℤ) - 1 := by
        omega
      rw [hc]
      omega
    simp only [oaepEncode, if_neg h2]
    intro hcon
    exact Except.noConfusion hcon

/-! ### Claim C9: uniform decode failure in `Decrypt` -/

theorem oaepDecode_none {hash : List ℕ → List ℕ} {hSize : ℕ} {em p : List ℕ}
    (hfail : DecodeFailTooShort hSize em ∨ DecodeFailLabel hash hSize em p ∨
      DecodeFailPad hash hSize em p) :
    oaepDecode hash hSize em p = none := by
  simp only [oaepDecode]
  by_cases h1 : em.length < 2 * hSize + 1
  · rw [if_pos h1]
  · rw [if_neg h1]
    by_cases h2 : (hash p).isPrefixOf (oaepDecodeDB hash hSize em) = true
    · rw [if_pos h2]
      rcases hfail with hf | hf | hf
      · exact absurd hf h1
      · exact absurd h2 hf
      · unfold DecodeFailPad at hf
        cases hrest : ((oaepDecodeDB hash hSize em).drop (hash p).length).dropWhile
            (fun b => b == 0) with
        | nil => rfl
        | cons b tl =>
          rw [hrest] at hf
          exact if_neg hf
    · rw [if_neg h2]

/-- Claim C9: whenever any internal OAEP-decode check fails inside
`Decrypt` — block too short, label-hash prefix mismatch, or a bad
remainder (empty, or missing `0x01` separator) — `Decrypt` returns the
single generic `ErrDecryption`, the same error value for every failing
check, never a result distinguishing which check failed. -/
theorem decrypt_uniform_error (k : RSAKey) (hash : List ℕ → List ℕ) (hSize : ℕ)
    (c p : List ℕ) (r rInv : ℤ)
    (hclen : c.length = (k.bits + 7) / 8)
    (hfail : DecodeFailTooShort hSize (decryptEM k c r rInv) ∨
      DecodeFailLabel hash hSize (decryptEM k c r rInv) p ∨
      DecodeFailPad hash hSize (decryptEM k c r rInv) p) :
    DecryptGo k hash hSize c p r rInv = Except.error Err.decryption := by
  simp only [DecryptGo]
  rw [if_neg (fun hne => hne hclen), oaepDecode_none hfail]

/-- Claim C9 witness: with the toy key
`n = 15, e = 3, d = 3, p = 5, q = 3, dP = 3, dQ = 1, qInv = 2, bits = 4`
(key size one byte), ciphertext `[7]`, trivial blinding `r = rInv = 1`
and a one-byte hash, the block handed to `oaepDecode` is one byte long,
the too-short check fails, and `Decrypt` returns `ErrDecryption`. -/
theorem decrypt_uniform_error_witness :
    ([7] : List ℕ).length = ((RSAKey.mk 15 3 3 5 3 3 1 2 4).bits + 7) / 8 ∧
      DecryptGo (RSAKey.mk 15 3 3 5 3 3 1 2 4) (fun _ => [0]) 1 [7] [] 1 1 =
        Except.error Err.decryption :=
  ⟨by decide,
    decrypt_uniform_error (RSAKey.mk 15 3 3 5 3 3 1 2 4) (fun _ => [0]) 1 [7] [] 1 1
      (by decide)
      (Or.inl (show DecodeFailTooShort 1 _ by unfold DecodeFailTooShort; decide))⟩

/-- Claim C10 witness: a one-byte key size with a one-byte hash and an
empty message; the precheck rejects (`0 > 1 - 2 - 2`), and the result
is `ErrMessageTooLarge`, not `ErrEncoding`. -/
theorem encrypt_no_encoding_error_witness :
    1 ≤ 4 ∧ EncryptGo 15 3 4 (fun _ => [0]) 1 [] [] [0] ≠ Except.error Err.encoding :=
  ⟨by decide, encrypt_no_encoding_error 15 3 4 (fun _ => [0]) 1 [] [] [0] (by decide)⟩

/-! ### Claim C5: `primes.Jacobi` computes the Jacobi symbol -/

theorem tzAux_spec : ∀ f n : ℕ, 0 < n → n ≤ f →
    (n / 2 ^ tzAux f n) % 2 = 1 ∧ 2 ^ tzAux f n ∣ n := by
  intro f
  induction f with
  | zero => intro n hn hf; omega
  | succ f ih =>
    intro n hn hf
    rw [tzAux]
    by_cases h2 : n % 2 = 0
    · rw [if_pos h2]
      have hn2 : 0 < n / 2 := by omega
      obtain ⟨ho, hd⟩ := ih (n / 2) hn2 (by omega)
      constructor
      · rw [pow_succ, mul_comm (2 ^ tzAux f (n / 2)) 2, ← Nat.div_div_eq_div_mul]
        exact ho
      · have hdvd2 : 2 ∣ n := by omega
        obtain ⟨m, rfl⟩ := hdvd2
        have h22 : 2 * m / 2 = m := Nat.mul_div_cancel_left m (by norm_num)
        rw [h22] at hd ⊢
        rw [pow_succ']
        exact mul_dvd_mul_left 2 hd
    · rw [if_neg h2]
      constructor
      · rw [pow_zero, Nat.div_one]; omega
      · rw [pow_zero]; exact one_dvd n

theorem tz_spec {n : ℕ} (hn : 0 < n) : (n / 2 ^ tz n) % 2 = 1 ∧ 2 ^ tz n ∣ n :=
  tzAux_spec n n hn le_rfl

theorem jacobiStep_eq :
    ∀ (fuel : ℕ) (a b : ℕ) (s : ℤ), b % 2 = 1 → 1 ≤ b → b ≤ fuel →
      jacobiStep fuel a b s = s * jacobiSym a b := by
  intro fuel
  induction fuel with
  | zero => intro a b s _ hb hf; omega
  | succ fuel ih =>
    intro a b s hb2 hb1 hf
    have hmod : jacobiSym (a : ℤ) b = jacobiSym ((a % b : ℕ) : ℤ) b := by
      rw [jacobiSym.mod_left (a : ℤ) b]
      norm_cast
    simp only [jacobiStep]
    by_cases hba : b = 1 ∨ a = 1
    · rw [if_pos hba]
      rcases hba with rfl | rfl
      · rw [jacobiSym.one_right, mul_one]
      · rw [Nat.cast_one, jacobiSym.one_left, mul_one]
    · rw [if_neg hba]
      push_neg at hba
      obtain ⟨hbne, _⟩ := hba
      have hb3 : 3 ≤ b := by omega
      by_cases ha0 : a % b = 0
      · rw [if_pos ha0, hmod, ha0]
        rw [Nat.cast_zero, jacobiSym.zero_left (by omega), mul_zero]
      · rw [if_neg ha0]
        obtain ⟨hodd, hdvd⟩ := tz_spec (Nat.pos_of_ne_zero ha0)
        have hdecomp : a % b = 2 ^ tz (a % b) * (a % b / 2 ^ tz (a % b)) :=
          (Nat.mul_div_cancel' hdvd).symm
        have hc1 : 1 ≤ a % b / 2 ^ tz (a % b) := by
          rcases Nat.eq_zero_or_pos (a % b / 2 ^ tz (a % b)) with h | h
          · rw [h, mul_zero] at hdecomp
            exact absurd hdecomp ha0
          · exact h
        have hclt : a % b / 2 ^ tz (a % b) ≤ a % b := Nat.div_le_self _ _
        have hablt : a % b < b := Nat.mod_lt a (by omega)
        rw [ih b (a % b / 2 ^ tz (a % b)) _ hodd hc1 (by omega)]
        rw [hmod]
        rw [show ((a % b : ℕ) : ℤ) = (2 : ℤ) ^ tz (a % b) * ((a % b / 2 ^ tz (a % b) : ℕ) : ℤ) by
          conv_lhs => rw [hdecomp]
          push_cast
          ring]
        rw [jacobiSym.mul_left, show ((2 : ℤ) ^ tz (a % b)) = (((2 : ℕ) : ℤ) ^ tz (a % b)) by
          norm_num]
        rw [jacobiSym.pow_left]
        rw [← jacobiSym.quadratic_reciprocity_if hodd hb2]
        have h2pow : jacobiSym ((2 : ℕ) : ℤ) b ^ tz (a % b) =
            (if tz (a % b) % 2 = 1 ∧ (b % 8 = 3 ∨ b % 8 = 5) then (-1 : ℤ) else 1) := by
          rw [show (((2 : ℕ) : ℤ)) = (2 : ℤ) by norm_num]
          rw [jacobiSym.at_two (Nat.odd_iff.mpr hb2), ZMod.χ₈_nat_eq_if_mod_eight]
          rw [if_neg (by omega : ¬ b % 2 = 0)]
          by_cases h17 : b % 8 = 1 ∨ b % 8 = 7
          · rw [if_pos h17, one_pow, if_neg (by omega)]
          · rw [if_neg h17]
            have h35 : b % 8 = 3 ∨ b % 8 = 5 := by omega
            by_cases hio : tz (a % b) % 2 = 1
            · rw [if_pos ⟨hio, h35⟩, Odd.neg_one_pow (Nat.odd_iff.mpr hio)]
            · rw [if_neg (by tauto), Even.neg_one_pow (Nat.even_iff.mpr (by omega))]
        rw [h2pow]
        by_cases hC : tz (a % b) % 2 = 1 ∧ (b % 8 = 3 ∨ b % 8 = 5) <;>
          by_cases hD : a % b / 2 ^ tz (a % b) % 4 = 3 ∧ b % 4 = 3 <;>
          simp only [hC, hD, true_and, and_true, and_self, if_true, if_false,
            eq_self_iff_true] <;>
          ring

/-- Claim C5: for every `a ∈ [0, 1000)` and odd `b ∈ [1, 1000)`,
`primes.Jacobi a b` equals the mathematical Jacobi symbol, and it is
`0` exactly when `gcd(a, b) > 1` (in particular `J(a, 1) = 1` since the
symbol of an odd unit modulus is `1`, never `0`). -/
theorem jacobi_correct (a b : ℕ) (ha : a < 1000) (hb : b < 1000)
    (hodd : b % 2 = 1) (hpos : 1 ≤ b) :
    Jacobi a b = jacobiSym a b ∧ (Jacobi a b = 0 ↔ 1 < Nat.gcd a b) := by
  have h1 : Jacobi a b = jacobiSym a b := by
    rw [Jacobi, jacobiStep_eq (b + 1) a b 1 hodd hpos (by omega), one_mul]
  refine ⟨h1, ?_⟩
  rw [h1, jacobiSym.eq_zero_iff]
  have hgcast : Int.gcd (a : ℤ) (b : ℤ) = Nat.gcd a b := Int.gcd_natCast_natCast a b
  have hgpos : 0 < Nat.gcd a b := Nat.gcd_pos_of_pos_right a hpos
  constructor
  · rintro ⟨_, hg⟩
    rw [hgcast] at hg
    omega
  · intro hg
    refine ⟨by omega, ?_⟩
    rw [hgcast]
    omega

/-- Claim C5 witness: `a = 6`, `b = 9` (so `gcd = 3 > 1`) is inside the
claimed ranges. -/
theorem jacobi_correct_witness :
    (6 : ℕ) < 1000 ∧ (9 : ℕ) < 1000 ∧ (9 : ℕ) % 2 = 1 ∧ 1 ≤ 9 ∧
      (Jacobi 6 9 = jacobiSym 6 9 ∧ (Jacobi 6 9 = 0 ↔ 1 < Nat.gcd 6 9)) :=
  ⟨by decide, by decide, by decide, by decide,
    jacobi_correct 6 9 (by decide) (by decide) (by decide) (by decide)⟩

/-! ### Claims C1 and C4: the raw RSA operations -/

theorem emod_modEq (a n : ℤ) : a % n ≡ a [ZMOD n] :=
  Int.emod_emod_of_dvd a dvd_rfl

/-- Fermat: if `E ≡ 1 (mod p-1)` for an odd prime `p`, then `m^E ≡ m`
modulo `p` for every integer `m` (also for multiples of `p`, since the
congruence forces `E ≥ 1`). -/
theorem pow_modEq_self {p : ℕ} (hp : p.Prime) (hp3 : 3 ≤ p) {E : ℕ}
    (hE : (E : ℤ) ≡ 1 [ZMOD ((p - 1 : ℕ) : ℤ)]) (m : ℤ) :
    m ^ E ≡ m [ZMOD (p : ℤ)] := by
  have hEn : E % (p - 1) = 1 % (p - 1) := by
    have h : (E : ℤ) % ((p - 1 : ℕ) : ℤ) = 1 % ((p - 1 : ℕ) : ℤ) := hE
    exact_mod_cast h
  have hp1 : 2 ≤ p - 1 := by omega
  have h1m : 1 % (p - 1) = 1 := Nat.mod_eq_of_lt (by omega)
  have hE1 : 1 ≤ E := by
    rcases Nat.eq_zero_or_pos E with rfl | h
    · rw [Nat.zero_mod, h1m] at hEn
      omega
    · exact h
  obtain ⟨t, ht⟩ : ∃ t, E = (p - 1) * t + 1 := by
    refine ⟨E / (p - 1), ?_⟩
    conv_lhs => rw [← Nat.div_add_mod E (p - 1)]
    rw [hEn, h1m]
  haveI : Fact p.Prime := ⟨hp⟩
  rw [← ZMod.intCast_eq_intCast_iff]
  push_cast
  by_cases hx : (m : ZMod p) = 0
  · rw [hx, zero_pow (by omega : E ≠ 0)]
  · rw [ht, pow_succ, pow_mul, ZMod.pow_card_sub_one_eq_one hx, one_pow, one_mul]

/-- The CRT result is congruent to `c^dQ` modulo `q`. -/
theorem rsaDecrypt_modEq_q (k : RSAKey) (c : ℤ) :
    rsaDecrypt k c ≡ c ^ k.dQ.toNat [ZMOD (k.q : ℤ)] := by
  show c ^ k.dQ.toNat % (k.q : ℤ) +
      (c ^ k.dP.toNat % (k.p : ℤ) - c ^ k.dQ.toNat % (k.q : ℤ)) * k.qInv % (k.p : ℤ) * (k.q : ℤ)
      ≡ c ^ k.dQ.toNat [ZMOD (k.q : ℤ)]
  have h1 : (c ^ k.dP.toNat % (k.p : ℤ) - c ^ k.dQ.toNat % (k.q : ℤ)) * k.qInv % (k.p : ℤ)
      * (k.q : ℤ) ≡ 0 [ZMOD (k.q : ℤ)] :=
    (Int.modEq_iff_dvd.mpr (by simp)).symm
  calc c ^ k.dQ.toNat % (k.q : ℤ) +
      (c ^ k.dP.toNat % (k.p : ℤ) - c ^ k.dQ.toNat % (k.q : ℤ)) * k.qInv % (k.p : ℤ) * (k.q : ℤ)
      ≡ c ^ k.dQ.toNat + 0 [ZMOD (k.q : ℤ)] :=
        Int.ModEq.add (emod_modEq _ _) h1
    _ = c ^ k.dQ.toNat := by ring

/-- The CRT result is congruent to `c^dP` modulo `p`, given
`q·qInv ≡ 1 (mod p)`. -/
theorem rsaDecrypt_modEq_p (k : RSAKey) (c : ℤ)
    (hqInv : (k.q : ℤ) * k.qInv ≡ 1 [ZMOD (k.p : ℤ)]) :
    rsaDecrypt k c ≡ c ^ k.dP.toNat [ZMOD (k.p : ℤ)] := by
  show c ^ k.dQ.toNat % (k.q : ℤ) +
      (c ^ k.dP.toNat % (k.p : ℤ) - c ^ k.dQ.toNat % (k.q : ℤ)) * k.qInv % (k.p : ℤ) * (k.q : ℤ)
      ≡ c ^ k.dP.toNat [ZMOD (k.p : ℤ)]
  set A := c ^ k.dP.toNat % (k.p : ℤ) with hA
  set B := c ^ k.dQ.toNat % (k.q : ℤ) with hB
  calc B + (A - B) * k.qInv % (k.p : ℤ) * (k.q : ℤ)
      ≡ B + (A - B) * k.qInv * (k.q : ℤ) [ZMOD (k.p : ℤ)] :=
        Int.ModEq.add_left B (Int.ModEq.mul_right _ (emod_modEq _ _))
    _ = B + (A - B) * ((k.q : ℤ) * k.qInv) := by ring
    _ ≡ B + (A - B) * 1 [ZMOD (k.p : ℤ)] :=
        Int.ModEq.add_left B (Int.ModEq.mul_left _ hqInv)
    _ = A := by ring
    _ ≡ c ^ k.dP.toNat [ZMOD (k.p : ℤ)] := emod_modEq _ _

theorem rsaDecrypt_bounds (k : RSAKey) (c : ℤ) (hp : 0 < k.p) (hq : 0 < k.q) :
    0 ≤ rsaDecrypt k c ∧ rsaDecrypt k c < (k.p : ℤ) * k.q := by
  have hpz : (k.p : ℤ) ≠ 0 := by exact_mod_cast Nat.pos_iff_ne_zero.mp hp
  have hqz : (k.q : ℤ) ≠ 0 := by exact_mod_cast Nat.pos_iff_ne_zero.mp hq
  have hpp : (0 : ℤ) < k.p := by exact_mod_cast hp
  have hqp : (0 : ℤ) < k.q := by exact_mod_cast hq
  show 0 ≤ c ^ k.dQ.toNat % (k.q : ℤ) +
      (c ^ k.dP.toNat % (k.p : ℤ) - c ^ k.dQ.toNat % (k.q : ℤ)) * k.qInv % (k.p : ℤ) * (k.q : ℤ) ∧
    c ^ k.dQ.toNat % (k.q : ℤ) +
      (c ^ k.dP.toNat % (k.p : ℤ) - c ^ k.dQ.toNat % (k.q : ℤ)) * k.qInv % (k.p : ℤ) * (k.q : ℤ)
      < (k.p : ℤ) * k.q
  set B := c ^ k.dQ.toNat % (k.q : ℤ) with hB
  set H := (c ^ k.dP.toNat % (k.p : ℤ) - c ^ k.dQ.toNat % (k.q : ℤ)) * k.qInv % (k.p : ℤ)
    with hH
  have hB0 : 0 ≤ B := Int.emod_nonneg _ hqz
  have hB1 : B < (k.q : ℤ) := Int.emod_lt_of_pos _ hqp
  have hH0 : 0 ≤ H := Int.emod_nonneg _ hpz
  have hH1 : H < (k.p : ℤ) := Int.emod_lt_of_pos _ hpp
  constructor
  · positivity
  · nlinarith [mul_le_mul_of_nonneg_right (by omega : H ≤ (k.p : ℤ) - 1) (le_of_lt hqp)]

theorem modEq_mul_of_coprime {p q : ℕ} (hco : Nat.Coprime p q) {a b : ℤ}
    (hp : a ≡ b [ZMOD (p : ℤ)]) (hq : a ≡ b [ZMOD (q : ℤ)]) :
    a ≡ b [ZMOD ((p * q : ℕ) : ℤ)] := by
  rw [Int.modEq_iff_dvd] at hp hq ⊢
  push_cast
  exact (Nat.Coprime.isCoprime hco).mul_dvd hp hq

theorem eq_of_modEq_of_bounds {n a b : ℤ} (h : a ≡ b [ZMOD n]) (ha : 0 ≤ a) (ha2 : a < n)
    (hb : 0 ≤ b) (hb2 : b < n) : a = b := by
  have hd := Int.ModEq.dvd h
  have := Int.eq_zero_of_abs_lt_dvd hd (by rw [abs_lt]; omega)
  omega

/-- From the key congruence `d·e ≡ 1 (mod lcm(p-1, q-1))` and
`dP = d mod (p-1)`: the exponent `e·dP` is `≡ 1 (mod p-1)`. -/
theorem invariant_exponent_p (k : RSAKey) (hp3 : 3 ≤ k.p)
    (hde : k.d * k.e ≡ 1 [ZMOD ((Nat.lcm (k.p - 1) (k.q - 1) : ℕ) : ℤ)])
    (hdP : k.dP = k.d % ((k.p - 1 : ℕ) : ℤ)) :
    ((k.e * k.dP.toNat : ℕ) : ℤ) ≡ 1 [ZMOD ((k.p - 1 : ℕ) : ℤ)] := by
  have hdvd : ((k.p - 1 : ℕ) : ℤ) ∣ ((Nat.lcm (k.p - 1) (k.q - 1) : ℕ) : ℤ) :=
    Int.natCast_dvd_natCast.mpr (Nat.dvd_lcm_left _ _)
  have h1 : k.d * k.e ≡ 1 [ZMOD ((k.p - 1 : ℕ) : ℤ)] := hde.of_dvd hdvd
  have h2 : k.dP ≡ k.d [ZMOD ((k.p - 1 : ℕ) : ℤ)] := by
    rw [hdP]; exact emod_modEq _ _
  have h3 : k.dP * k.e ≡ 1 [ZMOD ((k.p - 1 : ℕ) : ℤ)] :=
    (Int.ModEq.mul_right _ h2).trans h1
  have h4 : (k.dP.toNat : ℤ) = k.dP := by
    apply Int.toNat_of_nonneg
    rw [hdP]
    apply Int.emod_nonneg
    have : (2 : ℤ) ≤ ((k.p - 1 : ℕ) : ℤ) := by exact_mod_cast (by omega : 2 ≤ k.p - 1)
    omega
  calc ((k.e * k.dP.toNat : ℕ) : ℤ) = k.dP * k.e := by push_cast; rw [h4]; ring
    _ ≡ 1 [ZMOD ((k.p - 1 : ℕ) : ℤ)] := h3

/-- The `q`-side analogue of `invariant_exponent_p`. -/
theorem invariant_exponent_q (k : RSAKey) (hq3 : 3 ≤ k.q)
    (hde : k.d * k.e ≡ 1 [ZMOD ((Nat.lcm (k.p - 1) (k.q - 1) : ℕ) : ℤ)])
    (hdQ : k.dQ = k.d % ((k.q - 1 : ℕ) : ℤ)) :
    ((k.e * k.dQ.toNat : ℕ) : ℤ) ≡ 1 [ZMOD ((k.q - 1 : ℕ) : ℤ)] := by
  have hdvd : ((k.q - 1 : ℕ) : ℤ) ∣ ((Nat.lcm (k.p - 1) (k.q - 1) : ℕ) : ℤ) :=
    Int.natCast_dvd_natCast.mpr (Nat.dvd_lcm_right _ _)
  have h1 : k.d * k.e ≡ 1 [ZMOD ((k.q - 1 : ℕ) : ℤ)] := hde.of_dvd hdvd
  have h2 : k.dQ ≡ k.d [ZMOD ((k.q - 1 : ℕ) : ℤ)] := by
    rw [hdQ]; exact emod_modEq _ _
  have h3 : k.dQ * k.e ≡ 1 [ZMOD ((k.q - 1 : ℕ) : ℤ)] :=
    (Int.ModEq.mul_right _ h2).trans h1
  have h4 : (k.dQ.toNat : ℤ) = k.dQ := by
    apply Int.toNat_of_nonneg
    rw [hdQ]
    apply Int.emod_nonneg
    have : (2 : ℤ) ≤ ((k.q - 1 : ℕ) : ℤ) := by exact_mod_cast (by omega : 2 ≤ k.q - 1)
    omega
  calc ((k.e * k.dQ.toNat : ℕ) : ℤ) = k.dQ * k.e := by push_cast; rw [h4]; ring
    _ ≡ 1 [ZMOD ((k.q - 1 : ℕ) : ℤ)] := h3

/-- Claim C1: under the invariants of a key produced by `NewKey`
(`n = p·q`, `p`, `q` odd primes, `d·e ≡ 1 (mod lcm(p-1, q-1))`,
`dP = d mod (p-1)`, `dQ = d mod (q-1)`, `q·qInv ≡ 1 (mod p)`), the raw
operations satisfy `decrypt (encrypt m) = m` for every integer
`0 ≤ m < n`. -/
theorem rsa_decrypt_encrypt (k : RSAKey) (m : ℤ)
    (hp : k.p.Prime) (hq : k.q.Prime) (hp3 : 3 ≤ k.p) (hq3 : 3 ≤ k.q) (hpq : k.p ≠ k.q)
    (hn : k.n = k.p * k.q)
    (hde : k.d * k.e ≡ 1 [ZMOD ((Nat.lcm (k.p - 1) (k.q - 1) : ℕ) : ℤ)])
    (hdP : k.dP = k.d % ((k.p - 1 : ℕ) : ℤ))
    (hdQ : k.dQ = k.d % ((k.q - 1 : ℕ) : ℤ))
    (hqInv : (k.q : ℤ) * k.qInv ≡ 1 [ZMOD (k.p : ℤ)])
    (hm0 : 0 ≤ m) (hmn : m < k.n) :
    rsaDecrypt k (rsaEncrypt k.n k.e m) = m := by
  have hppos : 0 < k.p := by omega
  have hqpos : 0 < k.q := by omega
  have hnpos : (0 : ℤ) < (k.n : ℤ) := by
    have : 0 < k.n := by rw [hn]; positivity
    exact_mod_cast this
  set c := rsaEncrypt k.n k.e m with hc
  have hcm : c ≡ m ^ k.e [ZMOD (k.n : ℤ)] := emod_modEq _ _
  have hpn : ((k.p : ℕ) : ℤ) ∣ (k.n : ℤ) := by
    rw [hn]; push_cast; exact Dvd.intro _ rfl
  have hqn : ((k.q : ℕ) : ℤ) ∣ (k.n : ℤ) := by
    rw [hn]; push_cast; exact dvd_mul_left _ _
  -- modulo p
  have hmp : rsaDecrypt k c ≡ m [ZMOD (k.p : ℤ)] := by
    have h1 : c ≡ m ^ k.e [ZMOD (k.p : ℤ)] := hcm.of_dvd hpn
    have h2 : c ^ k.dP.toNat ≡ m ^ (k.e * k.dP.toNat) [ZMOD (k.p : ℤ)] := by
      rw [pow_mul]
      exact Int.ModEq.pow _ h1
    have h3 : m ^ (k.e * k.dP.toNat) ≡ m [ZMOD (k.p : ℤ)] :=
      pow_modEq_self hp hp3 (invariant_exponent_p k hp3 hde hdP) m
    exact ((rsaDecrypt_modEq_p k c hqInv).trans h2).trans h3
  -- modulo q
  have hmq : rsaDecrypt k c ≡ m [ZMOD (k.q : ℤ)] := by
    have h1 : c ≡ m ^ k.e [ZMOD (k.q : ℤ)] := hcm.of_dvd hqn
    have h2 : c ^ k.dQ.toNat ≡ m ^ (k.e * k.dQ.toNat) [ZMOD (k.q : ℤ)] := by
      rw [pow_mul]
      exact Int.ModEq.pow _ h1
    have h3 : m ^ (k.e * k.dQ.toNat) ≡ m [ZMOD (k.q : ℤ)] :=
      pow_modEq_self hq hq3 (invariant_exponent_q k hq3 hde hdQ) m
    exact ((rsaDecrypt_modEq_q k c).trans h2).trans h3
  have hco : Nat.Coprime k.p k.q := (Nat.coprime_primes hp hq).mpr hpq
  have hcrt : rsaDecrypt k c ≡ m [ZMOD ((k.p * k.q : ℕ) : ℤ)] :=
    modEq_mul_of_coprime hco hmp hmq
  obtain ⟨hr0, hr1⟩ := rsaDecrypt_bounds k c hppos hqpos
  have hmn2 : m < ((k.p * k.q : ℕ) : ℤ) := by
    rw [← hn]; exact_mod_cast hmn
  refine eq_of_modEq_of_bounds hcrt hr0 ?_ hm0 hmn2
  calc rsaDecrypt k c < (k.p : ℤ) * k.q := hr1
    _ = ((k.p * k.q : ℕ) : ℤ) := by push_cast; ring

/-- Claim C1 witness: the key
`n = 15, e = 3, d = 3, p = 5, q = 3, dP = 3, dQ = 1, qInv = 2` and the
message `m = 7`: `encrypt 7 = 13` and `decrypt 13 = 7`. -/
theorem rsa_decrypt_encrypt_witness :
    rsaDecrypt (RSAKey.mk 15 3 3 5 3 3 1 2 4) (rsaEncrypt 15 3 7) = 7 :=
  rsa_decrypt_encrypt (RSAKey.mk 15 3 3 5 3 3 1 2 4) 7
    (by norm_num) (by norm_num) (by norm_num) (by norm_num) (by norm_num) rfl
    (by decide) (by decide) (by decide) (by decide) (by norm_num) (by norm_num)

/-- Claim C4: blinding does not change the result.  Under the key
invariants, for any ciphertext `0 ≤ c < n` and any blinding factor `r`
with inverse `rInv` (`r·rInv ≡ 1 (mod n)`), running the CRT private
operation on the blinded value `c·(r^e mod n) mod n` and multiplying by
`rInv` modulo `n` — exactly the computation in `Decrypt` — yields the
same residue as the CRT operation applied to `c` directly; in
particular `Decrypt`'s output does not depend on which `r` the retry
loop draws. -/
theorem rsa_blinding (k : RSAKey) (c r rInv : ℤ)
    (hp : k.p.Prime) (hq : k.q.Prime) (hp3 : 3 ≤ k.p) (hq3 : 3 ≤ k.q) (hpq : k.p ≠ k.q)
    (hn : k.n = k.p * k.q)
    (hde : k.d * k.e ≡ 1 [ZMOD ((Nat.lcm (k.p - 1) (k.q - 1) : ℕ) : ℤ)])
    (hdP : k.dP = k.d % ((k.p - 1 : ℕ) : ℤ))
    (hdQ : k.dQ = k.d % ((k.q - 1 : ℕ) : ℤ))
    (hqInv : (k.q : ℤ) * k.qInv ≡ 1 [ZMOD (k.p : ℤ)])
    (hr : r * rInv ≡ 1 [ZMOD (k.n : ℤ)])
    (hc0 : 0 ≤ c) (hcn : c < k.n) :
    rsaDecrypt k (c * (r ^ k.e % (k.n : ℤ)) % (k.n : ℤ)) * rInv % (k.n : ℤ)
      = rsaDecrypt k c := by
  have hppos : 0 < k.p := by omega
  have hqpos : 0 < k.q := by omega
  have hnpos : (0 : ℤ) < (k.n : ℤ) := by
    have : 0 < k.n := by rw [hn]; positivity
    exact_mod_cast this
  have hpn : ((k.p : ℕ) : ℤ) ∣ (k.n : ℤ) := by
    rw [hn]; push_cast; exact Dvd.intro _ rfl
  have hqn : ((k.q : ℕ) : ℤ) ∣ (k.n : ℤ) := by
    rw [hn]; push_cast; exact dvd_mul_left _ _
  set B := c * (r ^ k.e % (k.n : ℤ)) % (k.n : ℤ) with hBdef
  have hBn : B ≡ c * r ^ k.e [ZMOD (k.n : ℤ)] :=
    (emod_modEq _ _).trans (Int.ModEq.mul_left c (emod_modEq _ _))
  -- one prime side, stated for either prime via its exponent congruence
  have side : ∀ P : ℕ, P.Prime → 3 ≤ P → ((P : ℕ) : ℤ) ∣ (k.n : ℤ) →
      ∀ dE : ℤ, (∀ x : ℤ, rsaDecrypt k x ≡ x ^ dE.toNat [ZMOD (P : ℤ)]) →
      ((k.e * dE.toNat : ℕ) : ℤ) ≡ 1 [ZMOD ((P - 1 : ℕ) : ℤ)] →
      rsaDecrypt k B * rInv ≡ rsaDecrypt k c [ZMOD (P : ℤ)] := by
    intro P hP hP3 hPn dE hdec hexp
    have hBp : B ≡ c * r ^ k.e [ZMOD (P : ℤ)] := hBn.of_dvd hPn
    have hrp : r * rInv ≡ 1 [ZMOD (P : ℤ)] := hr.of_dvd hPn
    have h1 : B ^ dE.toNat ≡ c ^ dE.toNat * r ^ (k.e * dE.toNat) [ZMOD (P : ℤ)] := by
      calc B ^ dE.toNat ≡ (c * r ^ k.e) ^ dE.toNat [ZMOD (P : ℤ)] := Int.ModEq.pow _ hBp
        _ = c ^ dE.toNat * r ^ (k.e * dE.toNat) := by rw [mul_pow, pow_mul]
    have h2 : r ^ (k.e * dE.toNat) ≡ r [ZMOD (P : ℤ)] := pow_modEq_self hP hP3 hexp r
    calc rsaDecrypt k B * rInv
        ≡ B ^ dE.toNat * rInv [ZMOD (P : ℤ)] := Int.ModEq.mul_right _ (hdec B)
      _ ≡ c ^ dE.toNat * r ^ (k.e * dE.toNat) * rInv [ZMOD (P : ℤ)] :=
          Int.ModEq.mul_right _ h1
      _ ≡ c ^ dE.toNat * r * rInv [ZMOD (P : ℤ)] :=
          Int.ModEq.mul_right _ (Int.ModEq.mul_left _ h2)
      _ = c ^ dE.toNat * (r * rInv) := by ring
      _ ≡ c ^ dE.toNat * 1 [ZMOD (P : ℤ)] := Int.ModEq.mul_left _ hrp
      _ = c ^ dE.toNat := by ring
      _ ≡ rsaDecrypt k c [ZMOD (P : ℤ)] := (hdec c).symm
  have hmp : rsaDecrypt k B * rInv ≡ rsaDecrypt k c [ZMOD (k.p : ℤ)] :=
    side k.p hp hp3 hpn k.dP (fun x => rsaDecrypt_modEq_p k x hqInv)
      (invariant_exponent_p k hp3 hde hdP)
  have hmq : rsaDecrypt k B * rInv ≡ rsaDecrypt k c [ZMOD (k.q : ℤ)] :=
    side k.q hq hq3 hqn k.dQ (fun x => rsaDecrypt_modEq_q k x)
      (invariant_exponent_q k hq3 hde hdQ)
  have hco : Nat.Coprime k.p k.q := (Nat.coprime_primes hp hq).mpr hpq
  have hfinal : rsaDecrypt k B * rInv % (k.n : ℤ) ≡ rsaDecrypt k c
      [ZMOD ((k.p * k.q : ℕ) : ℤ)] := by
    have hmodn : rsaDecrypt k B * rInv % (k.n : ℤ) ≡ rsaDecrypt k B * rInv
        [ZMOD ((k.p * k.q : ℕ) : ℤ)] := by
      rw [show ((k.p * k.q : ℕ) : ℤ) = (k.n : ℤ) by rw [hn]]
      exact emod_modEq _ _
    exact hmodn.trans (modEq_mul_of_coprime hco hmp hmq)
  obtain ⟨hY0, hY1⟩ := rsaDecrypt_bounds k c hppos hqpos
  have hXn : rsaDecrypt k B * rInv % (k.n : ℤ) < (k.n : ℤ) := Int.emod_lt_of_pos _ hnpos
  have hX0 : 0 ≤ rsaDecrypt k B * rInv % (k.n : ℤ) :=
    Int.emod_nonneg _ (by omega)
  have hpqn : ((k.p * k.q : ℕ) : ℤ) = (k.n : ℤ) := by rw [hn]
  refine eq_of_modEq_of_bounds hfinal hX0 ?_ hY0 ?_
  · rw [hpqn]; exact hXn
  · rw [hpqn, hn]; push_cast; exact hY1

/-- Claim C4 witness: same toy key as claim C1, ciphertext `c = 13`,
blinding factor `r = 2` with inverse `rInv = 8` modulo `15`. -/
theorem rsa_blinding_witness :
    rsaDecrypt (RSAKey.mk 15 3 3 5 3 3 1 2 4) (13 * (2 ^ 3 % (15 : ℤ)) % (15 : ℤ)) * 8 % 15
      = rsaDecrypt (RSAKey.mk 15 3 3 5 3 3 1 2 4) 13 :=
  rsa_blinding (RSAKey.mk 15 3 3 5 3 3 1 2 4) 13 2 8
    (by norm_num) (by norm_num) (by norm_num) (by norm_num) (by norm_num) rfl
    (by decide) (by decide) (by decide) (by decide) (by decide) (by norm_num) (by norm_num)

/-! ### Claim C3: OAEP round trip -/

theorem mgf_length (hash : List ℕ → List ℕ) (hSize : ℕ) (z : List ℕ) (l : ℕ)
    (hpos : 0 < hSize) (hlen : ∀ x, (hash x).length = hSize) :
    (mgf hash hSize z l).length = l := by
  simp only [mgf]
  rw [List.length_take]
  apply Nat.min_eq_left
  rw [List.length_flatten, List.map_map]
  have hmap : (List.range (l / hSize + if l % hSize = 0 then 0 else 1)).map
      (List.length ∘ fun i => hash (z ++ be32 i)) =
      List.replicate (l / hSize + if l % hSize = 0 then 0 else 1) hSize := by
    rw [List.eq_replicate_iff]
    refine ⟨by rw [List.length_map, List.length_range], ?_⟩
    intro b hb
    rw [List.mem_map] at hb
    obtain ⟨i, _, rfl⟩ := hb
    exact hlen _
  rw [hmap, List.sum_const_nat]
  by_cases h : l % hSize = 0
  · rw [if_pos h, Nat.add_zero, Nat.div_mul_cancel (Nat.dvd_of_mod_eq_zero h)]
  · rw [if_neg h]
    calc l = hSize * (l / hSize) + l % hSize := (Nat.div_add_mod l hSize).symm
      _ ≤ hSize * (l / hSize) + hSize := by
          have := Nat.mod_lt l hpos
          omega
      _ = (l / hSize + 1) * hSize := by ring

theorem xorBytes_length (a b : List ℕ) : (xorBytes a b).length = min a.length b.length :=
  List.length_zipWith _ a b

theorem xorBytes_cancel (a : List ℕ) : ∀ b : List ℕ, a.length = b.length →
    xorBytes (xorBytes a b) b = a := by
  induction a with
  | nil =>
    intro b h
    cases b with
    | nil => rfl
    | cons y ys => simp at h
  | cons x xs ih =>
    intro b h
    cases b with
    | nil => simp at h
    | cons y ys =>
      simp only [xorBytes, List.zipWith_cons_cons]
      rw [Nat.xor_cancel_right]
      have htail := ih ys (by simpa using h)
      simp only [xorBytes] at htail
      rw [htail]

theorem isPrefixOf_append (a t : List ℕ) : a.isPrefixOf (a ++ t) = true := by
  induction a with
  | nil => simp [List.isPrefixOf]
  | cons x xs ih => simp [List.isPrefixOf, ih]

theorem dropWhile_zeros (t : ℕ) (m : List ℕ) :
    (List.replicate t 0 ++ 1 :: m).dropWhile (fun b => b == 0) = 1 :: m := by
  induction t with
  | zero => simp [List.dropWhile_cons]
  | succ t ih => simp [List.replicate_succ, List.dropWhile_cons, ih]

/-- Claim C3: OAEP round trip.  For any hash of output size `hSize`,
any label `p`, any target length `l` and any message with
`len(m) ≤ l - 2·hSize - 1`, and whatever seed the encoder draws,
`oaepDecode` applied to `oaepEncode`'s output with the same label
succeeds and returns exactly `m`. -/
theorem oaep_round_trip (hash : List ℕ → List ℕ) (hSize : ℕ) (hpos : 0 < hSize)
    (hlen : ∀ x, (hash x).length = hSize) (m p seed : List ℕ) (l : ℕ)
    (hm : (m.length : ℤ) ≤ (l : ℤ) - 2 * hSize - 1)
    (hseed : seed.length = hSize) :
    (oaepEncode hash hSize m p l seed).bind (fun em => oaepDecode hash hSize em p)
      = some m := by
  have hl : m.length + 2 * hSize + 1 ≤ l := by omega
  have hcheck : ¬ ((m.length : ℤ) > (l : ℤ) - 2 * hSize - 1) := by omega
  set t : ℕ := ((l : ℤ) - m.length - 2 * hSize - 1).toNat with ht
  have htval : m.length + 2 * hSize + 1 + t = l := by omega
  set db : List ℕ := hash p ++ List.replicate t 0 ++ 1 :: m with hdbdef
  have hdbLen : db.length = l - hSize := by
    rw [hdbdef]
    simp [List.length_append, List.length_replicate, hlen]
    omega
  set dbm : List ℕ := mgf hash hSize seed (l - hSize) with hdbmdef
  set dbMasked : List ℕ := xorBytes db dbm with hdbM
  have hdbmLen : dbm.length = l - hSize := mgf_length hash hSize seed (l - hSize) hpos hlen
  have hdbMLen : dbMasked.length = l - hSize := by
    rw [hdbM, xorBytes_length, hdbLen, hdbmLen, Nat.min_self]
  set sm : List ℕ := mgf hash hSize dbMasked hSize with hsmdef
  have hsmLen : sm.length = hSize := mgf_length hash hSize dbMasked hSize hpos hlen
  set sMasked : List ℕ := xorBytes seed sm with hsMdef
  have hsMLen : sMasked.length = hSize := by
    rw [hsMdef, xorBytes_length, hseed, hsmLen, Nat.min_self]
  have hemLen : (sMasked ++ dbMasked).length = l := by
    rw [List.length_append, hsMLen, hdbMLen]
    omega
  have henc : oaepEncode hash hSize m p l seed = some (sMasked ++ dbMasked) := by
    simp only [oaepEncode]
    rw [if_neg hcheck]
    have hps : (if 0 < (l : ℤ) - m.length - 2 * hSize - 1
        then List.replicate ((l : ℤ) - m.length - 2 * hSize - 1).toNat 0 else ([] : List ℕ))
        = List.replicate t 0 := by
      split_ifs with h
      · rw [ht]
      · rw [show t = 0 by omega]
        rfl
    rw [hps]
  rw [henc]
  show oaepDecode hash hSize (sMasked ++ dbMasked) p = some m
  have hdbrec : oaepDecodeDB hash hSize (sMasked ++ dbMasked) = db := by
    simp only [oaepDecodeDB]
    rw [List.take_left' hsMLen, List.drop_left' hsMLen, hemLen]
    rw [← hsmdef, hsMdef]
    rw [xorBytes_cancel seed sm (by rw [hseed, hsmLen])]
    rw [← hdbmdef, hdbM]
    rw [xorBytes_cancel db dbm (by rw [hdbLen, hdbmLen])]
  simp only [oaepDecode]
  rw [if_neg (by rw [hemLen]; omega)]
  rw [hdbrec, hdbdef, List.append_assoc, isPrefixOf_append, if_pos rfl]
  rw [List.drop_left, dropWhile_zeros]
  simp

/-- Claim C3 witness: a one-byte constant hash, message `[5]`, empty
label, block length `4`, seed `[9]`. -/
theorem oaep_round_trip_witness :
    (oaepEncode (fun _ => [0]) 1 [5] [] 4 [9]).bind
      (fun em => oaepDecode (fun _ => [0]) 1 em []) = some [5] :=
  oaep_round_trip (fun _ => [0]) 1 (by decide) (fun _ => rfl) [5] [] [9] 4
    (by norm_num) rfl

/-! ### Claim C2: `NewKey` invariants and the `p = q` defect -/

theorem lor_one_odd {n : ℕ} (h : n % 2 = 1) : n ||| 1 = n := by
  apply Nat.eq_of_testBit_eq
  intro j
  rw [Nat.testBit_or]
  cases j with
  | zero =>
    rw [Nat.testBit_zero, Nat.testBit_zero, h]
    simp
  | succ j =>
    rw [Nat.testBit_succ 1 j]
    simp

/-- Fuel-driven modular exponentiation by squaring (fuel `e` always
suffices, the exponent halves each step).  Only used to verify the
prime certificates below inside the kernel. -/
def powModAux : ℕ → ℕ → ℕ → ℕ → ℕ
  | 0, _, _, m => 1 % m
  | f + 1, b, e, m =>
    if e = 0 then 1 % m
    else
      let h := powModAux f (b * b % m) (e / 2) m
      if e % 2 = 1 then b * h % m else h

def powMod (b e m : ℕ) : ℕ := powModAux e b e m

theorem powModAux_eq : ∀ f b e m : ℕ, 0 < m → e ≤ f → powModAux f b e m = b ^ e % m := by
  intro f
  induction f with
  | zero =>
    intro b e m hm he
    obtain rfl : e = 0 := by omega
    rw [powModAux, pow_zero]
  | succ f ih =>
    intro b e m hm he
    rw [powModAux]
    by_cases he0 : e = 0
    · rw [if_pos he0, he0, pow_zero]
    · rw [if_neg he0]
      have hrec := ih (b * b % m) (e / 2) m hm (by omega)
      have hbb : (b * b % m) ^ (e / 2) % m = b ^ (2 * (e / 2)) % m := by
        rw [← Nat.pow_mod, show b * b = b ^ 2 by ring, ← pow_mul]
      by_cases hpar : e % 2 = 1
      · rw [if_pos hpar, hrec, hbb]
        conv_rhs => rw [show e = 2 * (e / 2) + 1 by omega]
        rw [pow_succ]
        rw [Nat.mul_mod b (b ^ (2 * (e / 2)) % m) m,
          Nat.mod_mod_of_dvd _ (dvd_refl m), ← Nat.mul_mod,
          Nat.mul_comm b (b ^ (2 * (e / 2)))]
      · rw [if_neg hpar, hrec, hbb, show 2 * (e / 2) = e by omega]

theorem powMod_eq (b e m : ℕ) (hm : 0 < m) : powMod b e m = b ^ e % m :=
  powModAux_eq e b e m hm le_rfl

theorem zmod_pow_natCast (P b e : ℕ) (hP : 0 < P) :
    ((b : ℕ) : ZMod P) ^ e = ((powMod b e P : ℕ) : ZMod P) := by
  rw [powMod_eq b e P hP, ZMod.natCast_mod, Nat.cast_pow]

theorem zmod_natCast_ne_one {P v : ℕ} (hP : 1 < P) (hv : v < P) (hne : v ≠ 1) :
    ((v : ℕ) : ZMod P) ≠ 1 := by
  haveI : Fact (1 < P) := ⟨hP⟩
  intro h
  have h1 : ((v : ℕ) : ZMod P).val = v := ZMod.val_natCast_of_lt hv
  rw [h, ZMod.val_one P] at h1
  omega

/-- `4395630593 = 262·2²⁴ + 1` is prime, by the Lucas test with the
primitive root `3` (`P - 1 = 2²⁵·131`). -/
theorem prime_4395630593 : Nat.Prime 4395630593 := by
  apply lucas_primality 4395630593 ((3 : ℕ) : ZMod 4395630593)
  · rw [show (4395630593 : ℕ) - 1 = 4395630592 from by norm_num]
    rw [zmod_pow_natCast _ _ _ (by norm_num)]
    rw [show powMod 3 4395630592 4395630593 = 1 from by decide]
    exact Nat.cast_one
  · intro q hq hdvd
    rw [show (4395630593 : ℕ) - 1 = 2 ^ 25 * 131 from by norm_num] at hdvd
    have hq2 : q = 2 ∨ q = 131 := by
      rcases (Nat.Prime.dvd_mul hq).mp hdvd with h | h
      · exact Or.inl ((Nat.prime_dvd_prime_iff_eq hq (by norm_num)).mp (hq.dvd_of_dvd_pow h))
      · exact Or.inr ((Nat.prime_dvd_prime_iff_eq hq (by norm_num)).mp h)
    rcases hq2 with rfl | rfl
    · rw [show ((4395630593 : ℕ) - 1) / 2 = 2197815296 from by norm_num]
      rw [zmod_pow_natCast _ _ _ (by norm_num)]
      rw [show powMod 3 2197815296 4395630593 = 4395630592 from by decide]
      exact zmod_natCast_ne_one (by norm_num) (by norm_num) (by norm_num)
    · rw [show ((4395630593 : ℕ) - 1) / 131 = 33554432 from by norm_num]
      rw [zmod_pow_natCast _ _ _ (by norm_num)]
      rw [show powMod 3 33554432 4395630593 = 3066098842 from by decide]
      exact zmod_natCast_ne_one (by norm_num) (by norm_num) (by norm_num)

/-- The key `NewKey 65` assembles when `Find` returns the prime
`4395630593` and the `q`-search lands on the same prime. -/
def bugKey : RSAKey :=
  { n := 4395630593 * 4395630593, e := 65537,
    d := Int.gcdB ((4395630592 : ℕ) : ℤ) 65537,
    p := 4395630593, q := 4395630593,
    dP := Int.gcdB ((4395630592 : ℕ) : ℤ) 65537 % ((4395630592 : ℕ) : ℤ),
    dQ := Int.gcdB ((4395630592 : ℕ) : ℤ) 65537 % ((4395630592 : ℕ) : ℤ),
    qInv := modInverse ((4395630593 : ℕ) : ℤ) ((4395630593 : ℕ) : ℤ),
    bits := 65 }

/-- Claim C2 fails on the code: a legitimate run of `NewKey 65` can
return a key with `p = q` (so `gcd(p, q) = p ≠ 1`).  The conjuncts
verify that every random draw involved is one the code can produce:
`Find(65/2+1, 128)` can return the 33-bit prime `4395630593` (it is
`≥ 2^32` and below the 5-byte bound `2^41`), `rand.Int(qMin)` can
return `199021328`, which puts `qn = qMin + 199021328` exactly on that
same prime, so `FindNext qn` returns `qn` itself (the characterising
predicates hold trivially), `n = p²` has exactly 65 bits, so the
modulus-size check passes and no retry happens, `gcd(λ, e) = 1` holds,
and `NewKey` assembles and returns a key with `q = p`, violating
`gcd(p, q) == 1`.  (The code never compares `q` with `p`.) -/
theorem newKey_p_eq_q_bug :
    64 ≤ 65 ∧
    Nat.Prime 4395630593 ∧
    2 ^ (65 / 2) ≤ 4395630593 ∧ (4395630593 : ℕ) < 2 ^ (65 / 2 + 9) ∧
    (199021328 : ℕ) < 2 ^ (65 - 1) / 4395630593 ∧
    2 ^ (65 - 1) / 4395630593 + 199021328 = 4395630593 ∧
    IsNextOddPrime 4395630593 4395630593 ∧
    IsPrevOddPrime 4395630593 4395630593 ∧
    newKeyStep 65 4395630593 199021328 4395630593 4395630593 = some bugKey ∧
    bugKey.p = bugKey.q ∧ 1 < Nat.gcd bugKey.p bugKey.q := by
  refine ⟨by norm_num, prime_4395630593, by norm_num, by norm_num, by norm_num, by norm_num,
    ?_, ?_, rfl, rfl,
    by rw [show bugKey.p = 4395630593 from rfl, show bugKey.q = 4395630593 from rfl,
      Nat.gcd_self]; norm_num⟩
  · refine ⟨prime_4395630593, by norm_num, ?_, ?_⟩
    · rw [lor_one_odd (by norm_num)]
    · intro k _ _ hk
      rwa [lor_one_odd (by norm_num)] at hk
  · exact ⟨prime_4395630593, by norm_num, le_rfl, fun k _ _ h => h⟩
